import Mathlib

/-!
Shallow embedding of the bitVector class of cpp-bbhash (bitvector.hpp) and
verification of its specification claims.

Machine integers are modelled as Nat; a 64-bit word is a Nat kept below 2^64
by the operations themselves, and where C++ unsigned arithmetic can wrap the
embedding takes the result modulo 2^32 or 2^64 explicitly.  The word array
std::atomic<uint64_t>* _bitArray is a List Nat; the class field _nchar always
equals the length of that list in the C++ code (every allocation sets both),
so the embedding represents _nchar as bitArray.length.  Streams are lists of
64-bit values, since every write in save and every read in load moves exactly
one uint64.
-/

/-- Fueled bit-count: the number of set bits of x, summing x mod 2 while
halving, fuel bounding the number of binary digits inspected.  This is the
specification popcount against which the code is checked. -/
def popSpecAux : Nat → Nat → Nat
  | 0, _ => 0
  | f + 1, x => x % 2 + popSpecAux f (x / 2)

/-- popcount_32 from bitvector.hpp: SWAR popcount on a 32-bit word.
Each C assignment stores into a uint32, so each step is taken mod 2^32;
the subtraction x -= (x >> 1) & m1 is modelled as unsigned wrap-around
subtraction (add 2^32 before subtracting, then reduce). -/
def popcount_32 (x : Nat) : Nat :=
  let m1 := 0x55555555
  let m2 := 0x33333333
  let m4 := 0x0f0f0f0f
  let h01 := 0x01010101
  let x1 := (x + 4294967296 - ((x >>> 1) &&& m1)) % 4294967296
  let x2 := ((x1 &&& m2) + ((x1 >>> 2) &&& m2)) % 4294967296
  let x3 := ((x2 + (x2 >>> 4)) &&& m4) % 4294967296
  ((x3 * h01) % 4294967296) >>> 24

/-- popcount_64 from bitvector.hpp: popcount of the low and high 32-bit
halves, added. -/
def popcount_64 (x : Nat) : Nat :=
  let low := x &&& 0xffffffff
  let high := (x >>> 32) &&& 0xffffffff
  popcount_32 low + popcount_32 high

/-- The bitVector class state: _size, _bitArray (words), _ranks.
_nchar is bitArray.length. -/
structure bitVector where
  size : Nat
  bitArray : List Nat
  ranks : List Nat
  deriving Repr, DecidableEq

namespace bitVector

/-- Constructor bitVector(uint64_t n): _size = n, _nchar = 1 + n / 64,
words allocated zeroed. -/
def ofSize (n : Nat) : bitVector :=
  { size := n, bitArray := List.replicate (1 + n / 64) 0, ranks := [] }

/-- operator[] and get: (_bitArray[pos >> 6] >> (pos & 63)) & 1. -/
def get (v : bitVector) (pos : Nat) : Nat :=
  (v.bitArray.getD (pos >>> 6) 0 >>> (pos &&& 63)) &&& 1

/-- get64(cell64): the raw word at index cell64. -/
def get64 (v : bitVector) (cell64 : Nat) : Nat :=
  v.bitArray.getD cell64 0

/-- set(pos): fetch_or of 1 << (pos & 63) into word pos >> 6. -/
def set (v : bitVector) (pos : Nat) : bitVector :=
  let w := v.bitArray.getD (pos >>> 6) 0
  { v with bitArray := v.bitArray.set (pos >>> 6) (w ||| (1 <<< (pos &&& 63))) }

/-- atomic_test_and_set(pos): the compare-exchange loop, run without
interference, loads the word, ors in the mask, and returns the bit of the
loaded (old) word at pos & 63. -/
def atomic_test_and_set (v : bitVector) (pos : Nat) : Nat × bitVector :=
  let mask := 1 <<< (pos &&& 63)
  let oldval := v.bitArray.getD (pos >>> 6) 0
  ((oldval >>> (pos &&& 63)) &&& 1,
   { v with bitArray := v.bitArray.set (pos >>> 6) (oldval ||| mask) })

/-- clear(): stores 0 into each of the _nchar words. -/
def clear (v : bitVector) : bitVector :=
  { v with bitArray := List.replicate v.bitArray.length 0 }

/-- Loop body of clearCollisions: for n iterations starting at loop index ii,
word ids+ii is replaced by its AND with the complement (xor against the
all-ones 64-bit word) of collision word ii. -/
def ccLoop (cw : List Nat) (ids : Nat) : Nat → Nat → List Nat → List Nat
  | 0, _, words => words
  | n + 1, ii, words =>
      let w := (words.getD (ids + ii) 0) &&& (0xffffffffffffffff ^^^ (cw.getD ii 0))
      ccLoop cw ids n (ii + 1) (words.set (ids + ii) w)

/-- clearCollisions(start, size, cc): ids = start/64; for ii < size/64 the
word ids+ii is ANDed with ~cc.get64(ii); afterwards cc.clear().  Returns the
updated pair (this, cc). -/
def clearCollisions (v : bitVector) (start size : Nat) (cc : bitVector) :
    bitVector × bitVector :=
  let ids := start / 64
  ({ v with bitArray := ccLoop cc.bitArray ids (size / 64) 0 v.bitArray },
   cc.clear)

/-- Loop of build_ranks over the word list: ii is the word index, r the
running rank; a sample is pushed whenever (ii * 64) % 512 == 0.  Returns the
pushed samples and the final rank. -/
def build_ranksGo : Nat → Nat → List Nat → List Nat × Nat
  | _, r, [] => ([], r)
  | ii, r, w :: ws =>
      let pre := if (ii * 64) % 512 == 0 then [r] else []
      let rest := build_ranksGo (ii + 1) (r + popcount_64 w) ws
      (pre ++ rest.1, rest.2)

/-- build_ranks(offset): walks the _nchar words pushing samples onto _ranks,
returns the final cumulative rank.  (_ranks.reserve has no observable
effect.) -/
def build_ranks (v : bitVector) (offset : Nat) : bitVector × Nat :=
  let g := build_ranksGo 0 offset v.bitArray
  ({ v with ranks := v.ranks ++ g.1 }, g.2)

/-- Summation loop of rank: adds popcount_64 of n consecutive words starting
at word index w. -/
def popRangeGo (words : List Nat) : Nat → Nat → Nat
  | 0, _ => 0
  | n + 1, w => popcount_64 (words.getD w 0) + popRangeGo words n (w + 1)

/-- rank(pos): seed from _ranks[pos / 512], add popcounts of the words from
block * 512 / 64 up to pos / 64 exclusive, then the masked final word. -/
def rank (v : bitVector) (pos : Nat) : Nat :=
  let word_idx := pos / 64
  let word_offset := pos % 64
  let block := pos / 512
  let r := v.ranks.getD block 0
  let r := r + popRangeGo v.bitArray (word_idx - block * 512 / 64) (block * 512 / 64)
  let mask := (1 <<< word_offset) - 1
  r + popcount_64 (v.bitArray.getD word_idx 0 &&& mask)

/-- save(os): writes _size, _nchar, the _nchar words, _ranks.size(), and the
rank samples, each as one 64-bit value. -/
def save (v : bitVector) : List Nat :=
  v.size :: v.bitArray.length :: (v.bitArray ++ v.ranks.length :: v.ranks)

/-- Reading n 64-bit values from a stream; a short stream is a failed read. -/
def readN (n : Nat) (s : List Nat) : Option (List Nat × List Nat) :=
  if n ≤ s.length then some (s.take n, s.drop n) else none

/-- load(is): reads _size and _nchar, then resize(_size) recomputes _nchar as
1 + _size / 64 discarding the stored value, reads that many words, reads the
rank-directory length and the samples. -/
def load (s : List Nat) : Option (bitVector × List Nat) :=
  match s with
  | size :: _ncharStored :: rest =>
      match readN (1 + size / 64) rest with
      | some (ws, r1) =>
          match r1 with
          | sizer :: r2 =>
              match readN sizer r2 with
              | some (rk, r3) => some ({ size := size, bitArray := ws, ranks := rk }, r3)
              | none => none
          | [] => none
      | none => none
  | _ => none

end bitVector

/-- Sum of popcount_64 over a word list (the total number of set bits of a
prefix of the array, when each word is below 2^64). -/
def popSum (ws : List Nat) : Nat := (ws.map popcount_64).sum

/-- Number of positions i < pos whose bit in v is set. -/
def countBitsBelow (v : bitVector) (pos : Nat) : Nat :=
  (List.range pos).countP (fun i => v.get i == 1)

set_option maxRecDepth 10000

/-! ## Popcount correctness -/

theorem popSpecAux_zero : ∀ f, popSpecAux f 0 = 0
  | 0 => rfl
  | f + 1 => by simp [popSpecAux, popSpecAux_zero f]

/-- Bit counting splits across a base-2^k digit boundary. -/
theorem popSpecAux_add_mul_pow :
    ∀ (k f a b : Nat), a < 2 ^ k →
      popSpecAux (k + f) (a + 2 ^ k * b) = popSpecAux k a + popSpecAux f b := by
  intro k
  induction k with
  | zero =>
      intro f a b ha
      have ha0 : a = 0 := by omega
      subst ha0
      simp [popSpecAux]
  | succ k ih =>
      intro f a b ha
      have h2 : (2 : Nat) ^ (k + 1) = 2 * 2 ^ k := by ring
      have hstep : k + 1 + f = (k + f) + 1 := by omega
      rw [hstep]
      simp only [popSpecAux]
      have hmul : (2 : Nat) ^ (k + 1) * b = 2 * (2 ^ k * b) := by ring
      rw [hmul]
      have hy1 : (a + 2 * (2 ^ k * b)) % 2 = a % 2 := by omega
      have hy2 : (a + 2 * (2 ^ k * b)) / 2 = a / 2 + 2 ^ k * b := by omega
      have ha2 : a / 2 < 2 ^ k := by omega
      rw [hy1, hy2, ih f (a / 2) b ha2]
      omega

/-- Extra fuel beyond the bit-length of the argument is irrelevant. -/
theorem popSpecAux_fuel_add :
    ∀ (f g x : Nat), x < 2 ^ f → popSpecAux (f + g) x = popSpecAux f x := by
  intro f
  induction f with
  | zero =>
      intro g x hx
      have hx0 : x = 0 := by omega
      subst hx0
      simp [popSpecAux_zero]
  | succ f ih =>
      intro g x hx
      have hstep : f + 1 + g = (f + g) + 1 := by omega
      rw [hstep]
      simp only [popSpecAux]
      have h2 : (2 : Nat) ^ (f + 1) = 2 * 2 ^ f := by ring
      have hx2 : x / 2 < 2 ^ f := by omega
      rw [ih g (x / 2) hx2]

/-- Bitwise AND splits across a base-2^k digit boundary. -/
theorem land_split (k a b m m' : Nat) (ha : a < 2 ^ k) (hm : m < 2 ^ k) :
    (a + 2 ^ k * b) &&& (m + 2 ^ k * m') = (a &&& m) + 2 ^ k * (b &&& m') := by
  apply Nat.eq_of_testBit_eq
  intro i
  have h1 : a + 2 ^ k * b = 2 ^ k * b + a := by omega
  have h2 : m + 2 ^ k * m' = 2 ^ k * m' + m := by omega
  have h3 : (a &&& m) + 2 ^ k * (b &&& m') = 2 ^ k * (b &&& m') + (a &&& m) := by omega
  rw [Nat.testBit_and, h1, h2, h3, Nat.testBit_mul_pow_two_add _ ha,
    Nat.testBit_mul_pow_two_add _ hm,
    Nat.testBit_mul_pow_two_add _ (Nat.and_lt_two_pow a hm)]
  by_cases hik : i < k
  · simp [hik, Nat.testBit_and]
  · simp [hik, Nat.testBit_and]

/-- Bitwise AND of four-byte words with a bytewise-constant mask acts
bytewise. -/
theorem land_bytes (b0 b1 b2 b3 m0 m1 m2 m3 : Nat)
    (h0 : b0 < 256) (h1 : b1 < 256) (h2 : b2 < 256)
    (g0 : m0 < 256) (g1 : m1 < 256) (g2 : m2 < 256) :
    (b0 + 256 * (b1 + 256 * (b2 + 256 * b3))) &&&
        (m0 + 256 * (m1 + 256 * (m2 + 256 * m3)))
      = (b0 &&& m0) + 256 * ((b1 &&& m1) + 256 * ((b2 &&& m2) + 256 * (b3 &&& m3))) := by
  have h256 : (256 : Nat) = 2 ^ 8 := by norm_num
  rw [h256] at h0 h1 h2 g0 g1 g2 ⊢
  rw [land_split 8 b0 _ m0 _ h0 g0, land_split 8 b1 _ m1 _ h1 g1,
    land_split 8 b2 b3 m2 m3 h2 g2]

/-- Per-byte SWAR step 1: subtract the 0x55-masked half. -/
def byteStep1 (b : Nat) : Nat := b - ((b / 2) &&& 0x55)

/-- Per-byte SWAR step 2: sum of the two 0x33-masked 2-bit group fields. -/
def byteStep2 (b : Nat) : Nat := (b &&& 0x33) + ((b / 4) &&& 0x33)

/-- Per-byte SWAR step 3: add the high nibble into the low one. -/
def byteStep3 (b : Nat) : Nat := (b + b / 16) % 16

theorem byteStep1_lt : ∀ b, b < 256 → byteStep1 b < 256 := by decide

theorem byteStep1_arith : ∀ b, b < 256 →
    ((b / 2) &&& 0x55) ≤ b ∧ ((b / 2) &&& 0x55) < 256 := by decide

theorem byteStep1_absorb : ∀ b, b < 256 → ∀ e, e < 2 →
    ((b / 2 + 128 * e) &&& 0x55) = (b / 2) &&& 0x55 := by decide

theorem byteStep2_absorb : ∀ b, b < 256 → ∀ e, e < 4 →
    ((b / 4 + 64 * e) &&& 0x33) = (b / 4) &&& 0x33 := by decide

theorem byteStep2_arith : ∀ b, b < 256 →
    (b &&& 0x33) ≤ 51 ∧ ((b / 4) &&& 0x33) ≤ 51 := by decide

theorem byteStep23_nibbles : ∀ b, b < 256 →
    byteStep2 (byteStep1 b) % 16 ≤ 4 ∧ byteStep2 (byteStep1 b) / 16 ≤ 4 := by decide

theorem byteSteps_popSpec : ∀ b, b < 256 →
    byteStep3 (byteStep2 (byteStep1 b)) = popSpecAux 8 b := by decide

theorem popSpecAux8_le : ∀ b, b < 256 → popSpecAux 8 b ≤ 8 := by decide


/-- Stage 1 of popcount_32 acts bytewise: the cross-byte bit brought in by
the shift is removed by the 0x55 mask, and the subtraction has no borrows
across bytes. -/
theorem stage1_eq (b0 b1 b2 b3 : Nat)
    (h0 : b0 < 256) (h1 : b1 < 256) (h2 : b2 < 256) (h3 : b3 < 256) :
    (b0 + 256 * (b1 + 256 * (b2 + 256 * b3)) + 4294967296
        - (((b0 + 256 * (b1 + 256 * (b2 + 256 * b3))) >>> 1) &&& 0x55555555))
      % 4294967296
      = byteStep1 b0 + 256 * (byteStep1 b1 + 256 * (byteStep1 b2 + 256 * byteStep1 b3)) := by
  have hsh : (b0 + 256 * (b1 + 256 * (b2 + 256 * b3))) >>> 1
      = (b0 / 2 + 128 * (b1 % 2)) + 256 * ((b1 / 2 + 128 * (b2 % 2))
          + 256 * ((b2 / 2 + 128 * (b3 % 2)) + 256 * (b3 / 2))) := by
    rw [Nat.shiftRight_eq_div_pow]
    have hp : (2 : Nat) ^ 1 = 2 := by norm_num
    rw [hp]
    omega
  have hm : (0x55555555 : Nat) = 0x55 + 256 * (0x55 + 256 * (0x55 + 256 * 0x55)) := by
    norm_num
  rw [hsh, hm,
    land_bytes _ _ _ _ _ _ _ _ (by omega) (by omega) (by omega)
      (by norm_num) (by norm_num) (by norm_num),
    byteStep1_absorb b0 h0 (b1 % 2) (by omega),
    byteStep1_absorb b1 h1 (b2 % 2) (by omega),
    byteStep1_absorb b2 h2 (b3 % 2) (by omega)]
  obtain ⟨a0, a0'⟩ := byteStep1_arith b0 h0
  obtain ⟨a1, a1'⟩ := byteStep1_arith b1 h1
  obtain ⟨a2, a2'⟩ := byteStep1_arith b2 h2
  obtain ⟨a3, a3'⟩ := byteStep1_arith b3 h3
  simp only [byteStep1]
  omega

/-- Stage 2 of popcount_32 acts bytewise: the two bits the shift drags
across a byte boundary are removed by the 0x33 mask, and the byte sums do
not carry. -/
theorem stage2_eq (y0 y1 y2 y3 : Nat)
    (k0 : y0 < 256) (k1 : y1 < 256) (k2 : y2 < 256) (k3 : y3 < 256) :
    (((y0 + 256 * (y1 + 256 * (y2 + 256 * y3))) &&& 0x33333333)
        + (((y0 + 256 * (y1 + 256 * (y2 + 256 * y3))) >>> 2) &&& 0x33333333))
      % 4294967296
      = byteStep2 y0 + 256 * (byteStep2 y1 + 256 * (byteStep2 y2 + 256 * byteStep2 y3)) := by
  have hsh : (y0 + 256 * (y1 + 256 * (y2 + 256 * y3))) >>> 2
      = (y0 / 4 + 64 * (y1 % 4)) + 256 * ((y1 / 4 + 64 * (y2 % 4))
          + 256 * ((y2 / 4 + 64 * (y3 % 4)) + 256 * (y3 / 4))) := by
    rw [Nat.shiftRight_eq_div_pow]
    have hp : (2 : Nat) ^ 2 = 4 := by norm_num
    rw [hp]
    omega
  have hm : (0x33333333 : Nat) = 0x33 + 256 * (0x33 + 256 * (0x33 + 256 * 0x33)) := by
    norm_num
  rw [hsh, hm,
    land_bytes _ _ _ _ _ _ _ _ k0 k1 k2 (by norm_num) (by norm_num) (by norm_num),
    land_bytes _ _ _ _ _ _ _ _ (by omega) (by omega) (by omega)
      (by norm_num) (by norm_num) (by norm_num),
    byteStep2_absorb y0 k0 (y1 % 4) (by omega),
    byteStep2_absorb y1 k1 (y2 % 4) (by omega),
    byteStep2_absorb y2 k2 (y3 % 4) (by omega)]
  obtain ⟨c0, c0'⟩ := byteStep2_arith y0 k0
  obtain ⟨c1, c1'⟩ := byteStep2_arith y1 k1
  obtain ⟨c2, c2'⟩ := byteStep2_arith y2 k2
  obtain ⟨c3, c3'⟩ := byteStep2_arith y3 k3
  simp only [byteStep2]
  omega

/-- Stage 3 of popcount_32 acts bytewise: when every nibble of the input is
at most 4, the byte sums of the nibble-shift addition do not carry and the
0x0f mask reduces each byte mod 16. -/
theorem stage3_eq (z0 z1 z2 z3 : Nat)
    (n0 : z0 % 16 ≤ 4 ∧ z0 / 16 ≤ 4) (n1 : z1 % 16 ≤ 4 ∧ z1 / 16 ≤ 4)
    (n2 : z2 % 16 ≤ 4 ∧ z2 / 16 ≤ 4) (n3 : z3 % 16 ≤ 4 ∧ z3 / 16 ≤ 4) :
    (((z0 + 256 * (z1 + 256 * (z2 + 256 * z3)))
        + ((z0 + 256 * (z1 + 256 * (z2 + 256 * z3))) >>> 4)) &&& 0x0f0f0f0f)
      % 4294967296
      = byteStep3 z0 + 256 * (byteStep3 z1 + 256 * (byteStep3 z2 + 256 * byteStep3 z3)) := by
  obtain ⟨n0a, n0b⟩ := n0
  obtain ⟨n1a, n1b⟩ := n1
  obtain ⟨n2a, n2b⟩ := n2
  obtain ⟨n3a, n3b⟩ := n3
  have hsh : (z0 + 256 * (z1 + 256 * (z2 + 256 * z3))) >>> 4
      = (z0 / 16 + 16 * (z1 % 16)) + 256 * ((z1 / 16 + 16 * (z2 % 16))
          + 256 * ((z2 / 16 + 16 * (z3 % 16)) + 256 * (z3 / 16))) := by
    rw [Nat.shiftRight_eq_div_pow]
    have hp : (2 : Nat) ^ 4 = 16 := by norm_num
    rw [hp]
    omega
  have hsum : (z0 + 256 * (z1 + 256 * (z2 + 256 * z3)))
      + ((z0 / 16 + 16 * (z1 % 16)) + 256 * ((z1 / 16 + 16 * (z2 % 16))
          + 256 * ((z2 / 16 + 16 * (z3 % 16)) + 256 * (z3 / 16))))
      = (z0 + (z0 / 16 + 16 * (z1 % 16)))
        + 256 * ((z1 + (z1 / 16 + 16 * (z2 % 16)))
          + 256 * ((z2 + (z2 / 16 + 16 * (z3 % 16))) + 256 * (z3 + z3 / 16))) := by
    omega
  have hm : (0x0f0f0f0f : Nat) = 0x0f + 256 * (0x0f + 256 * (0x0f + 256 * 0x0f)) := by
    norm_num
  have h15 : ∀ t : Nat, t &&& 0x0f = t % 16 := by
    intro t
    have h := Nat.and_pow_two_sub_one_eq_mod t 4
    norm_num at h
    exact h
  rw [hsh, hsum, hm,
    land_bytes _ _ _ _ _ _ _ _ (by omega) (by omega) (by omega)
      (by norm_num) (by norm_num) (by norm_num),
    h15, h15, h15, h15]
  have r0 : (z0 + (z0 / 16 + 16 * (z1 % 16))) % 16 = (z0 + z0 / 16) % 16 := by omega
  have r1 : (z1 + (z1 / 16 + 16 * (z2 % 16))) % 16 = (z1 + z1 / 16) % 16 := by omega
  have r2 : (z2 + (z2 / 16 + 16 * (z3 % 16))) % 16 = (z2 + z2 / 16) % 16 := by omega
  rw [r0, r1, r2]
  simp only [byteStep3]
  omega

/-- Stage 4 of popcount_32: multiplying a word of bytes that are at most 8
by 0x01010101 accumulates the byte sum in the top byte. -/
theorem stage4_eq (p0 p1 p2 p3 : Nat)
    (q0 : p0 ≤ 8) (q1 : p1 ≤ 8) (q2 : p2 ≤ 8) (q3 : p3 ≤ 8) :
    (((p0 + 256 * (p1 + 256 * (p2 + 256 * p3))) * 0x01010101) % 4294967296) >>> 24
      = p0 + p1 + p2 + p3 := by
  rw [Nat.shiftRight_eq_div_pow]
  have hp : (2 : Nat) ^ 24 = 16777216 := by norm_num
  have hX : (p0 + 256 * (p1 + 256 * (p2 + 256 * p3))) * 0x01010101
      = (p0 + 256 * (p0 + p1) + 65536 * (p0 + p1 + p2)
          + 16777216 * (p0 + p1 + p2 + p3))
        + 4294967296 * ((p1 + p2 + p3) + 256 * (p2 + p3) + 65536 * p3) := by
    ring
  rw [hp, hX]
  have hmod : (p0 + 256 * (p0 + p1) + 65536 * (p0 + p1 + p2)
        + 16777216 * (p0 + p1 + p2 + p3)
        + 4294967296 * ((p1 + p2 + p3) + 256 * (p2 + p3) + 65536 * p3))
      % 4294967296
      = p0 + 256 * (p0 + p1) + 65536 * (p0 + p1 + p2)
        + 16777216 * (p0 + p1 + p2 + p3) := by
    rw [Nat.add_mul_mod_self_left]
    apply Nat.mod_eq_of_lt
    omega
  rw [hmod]
  omega

/-- Splitting the specification popcount at a byte boundary. -/
theorem popSpecAux_byte_split (f a b : Nat) (ha : a < 256) :
    popSpecAux (8 + f) (a + 256 * b) = popSpecAux 8 a + popSpecAux f b := by
  have h256 : (256 : Nat) = 2 ^ 8 := by norm_num
  rw [h256] at ha ⊢
  exact popSpecAux_add_mul_pow 8 f a b ha

/-- Correctness of the 32-bit SWAR popcount. -/
theorem popcount_32_correct (x : Nat) (hx : x < 4294967296) :
    popcount_32 x = popSpecAux 32 x := by
  obtain ⟨b0, b1, b2, b3, rfl, h0, h1, h2, h3⟩ :
      ∃ b0 b1 b2 b3, x = b0 + 256 * (b1 + 256 * (b2 + 256 * b3))
        ∧ b0 < 256 ∧ b1 < 256 ∧ b2 < 256 ∧ b3 < 256 :=
    ⟨x % 256, x / 256 % 256, x / 65536 % 256, x / 16777216,
      by omega, by omega, by omega, by omega, by omega⟩
  simp only [popcount_32]
  rw [stage1_eq b0 b1 b2 b3 h0 h1 h2 h3,
    stage2_eq _ _ _ _ (byteStep1_lt b0 h0) (byteStep1_lt b1 h1)
      (byteStep1_lt b2 h2) (byteStep1_lt b3 h3),
    stage3_eq _ _ _ _ (byteStep23_nibbles b0 h0) (byteStep23_nibbles b1 h1)
      (byteStep23_nibbles b2 h2) (byteStep23_nibbles b3 h3)]
  have e0 := byteSteps_popSpec b0 h0
  have e1 := byteSteps_popSpec b1 h1
  have e2 := byteSteps_popSpec b2 h2
  have e3 := byteSteps_popSpec b3 h3
  rw [stage4_eq _ _ _ _ (by rw [e0]; exact popSpecAux8_le b0 h0)
    (by rw [e1]; exact popSpecAux8_le b1 h1)
    (by rw [e2]; exact popSpecAux8_le b2 h2)
    (by rw [e3]; exact popSpecAux8_le b3 h3)]
  have h32 : (32 : Nat) = 8 + 24 := by norm_num
  have h24 : (24 : Nat) = 8 + 16 := by norm_num
  have h16 : (16 : Nat) = 8 + 8 := by norm_num
  rw [h32, popSpecAux_byte_split 24 b0 _ h0, h24, popSpecAux_byte_split 16 b1 _ h1,
    h16, popSpecAux_byte_split 8 b2 b3 h2, e0, e1, e2, e3]
  omega

/-- popcount_64 counts the bits of its argument reduced to 64 bits; the two
0xffffffff masks discard anything above bit 63. -/
theorem popcount_64_eq_popSpec (w : Nat) :
    popcount_64 w = popSpecAux 64 (w % 18446744073709551616) := by
  simp only [popcount_64]
  have hl : w &&& 0xffffffff = w % 4294967296 := by
    have h := Nat.and_pow_two_sub_one_eq_mod w 32
    norm_num at h
    exact h
  have hh : (w >>> 32) &&& 0xffffffff = w / 4294967296 % 4294967296 := by
    have h := Nat.and_pow_two_sub_one_eq_mod (w >>> 32) 32
    norm_num at h
    rw [h, Nat.shiftRight_eq_div_pow]
  rw [hl, hh, popcount_32_correct _ (by omega), popcount_32_correct _ (by omega)]
  have h232 : (4294967296 : Nat) = 2 ^ 32 := by norm_num
  have hsplit := popSpecAux_add_mul_pow 32 32 (w % 4294967296)
    (w / 4294967296 % 4294967296) (by omega)
  norm_num at hsplit
  have hw : w % 18446744073709551616
      = w % 4294967296 + 4294967296 * (w / 4294967296 % 4294967296) := by
    omega
  rw [hw, hsplit]

/-- Correctness of popcount_64 on genuine 64-bit values. -/
theorem popcount_64_correct (x : Nat) (hx : x < 18446744073709551616) :
    popcount_64 x = popSpecAux 64 x := by
  rw [popcount_64_eq_popSpec, Nat.mod_eq_of_lt hx]

/-- C9: popcount_64 returns the number of set bits of every 64-bit value,
and popcount_32 the number of set bits of every 32-bit value. -/
theorem popcount_correct :
    (∀ x, x < 18446744073709551616 → popcount_64 x = popSpecAux 64 x)
    ∧ ∀ y, y < 4294967296 → popcount_32 y = popSpecAux 32 y :=
  ⟨popcount_64_correct, popcount_32_correct⟩

/-- Witness for C9 at concrete 64-bit and 32-bit inputs. -/
theorem popcount_correct_witness :
    popcount_64 12345678901234567890 = popSpecAux 64 12345678901234567890
    ∧ popcount_32 3735928559 = popSpecAux 32 3735928559 :=
  ⟨popcount_correct.1 12345678901234567890 (by decide),
   popcount_correct.2 3735928559 (by decide)⟩

/-! ## Allocation size (constructor and save header) -/

/-- C3 counterexample: for n = 1 bit the constructor allocates 1 word,
not the 2 words the ceiling formula from the claim gives. -/
theorem ofSize_words_ceil_counterexample :
    (bitVector.ofSize 1).bitArray.length ≠ (1 + 63) / 64 + 1 := by decide

/-- C3 amended: constructing a bitVector of n bits allocates exactly
n / 64 + 1 (floor division) zeroed words, and save writes exactly this
count as its second header field. -/
theorem ofSize_words_spec (n : Nat) :
    (bitVector.ofSize n).bitArray = List.replicate (n / 64 + 1) 0
    ∧ (bitVector.save (bitVector.ofSize n)).getD 1 0 = n / 64 + 1 := by
  constructor
  · simp [bitVector.ofSize, Nat.add_comm]
  · simp [bitVector.ofSize, bitVector.save, Nat.add_comm]

/-! ## Load behaviour on the stored num_words field -/

/-- C8 counterexample: a stream whose stored num_words field (5) is
inconsistent with its size field (0 implies 1 word) is loaded without any
error. -/
theorem load_mismatch_counterexample :
    (5 : Nat) ≠ 0 / 64 + 1 ∧ (bitVector.load [0, 5, 7, 0]).isSome = true := by
  decide

/-- C8 amended: load ignores the stored num_words field entirely; it
recomputes the word count from size_in_bits and never reports a mismatch. -/
theorem load_ignores_numwords (sz a b : Nat) (rest : List Nat) :
    bitVector.load (sz :: a :: rest) = bitVector.load (sz :: b :: rest) := rfl

/-! ## Rank probe scenario -/

/-- The 10000-bit probe vector with bits 0, 63, 64, 511, 512, 9999 set. -/
def probeVec : bitVector :=
  ((((((bitVector.ofSize 10000).set 0).set 63).set 64).set 511).set 512).set 9999

/-- The probe vector after build_ranks with offset 100. -/
def probeVecRanked : bitVector := (probeVec.build_ranks 100).1

/-- C7 counterexample: rank(513) is not 104; the bits strictly before
position 513 are 0, 63, 64, 511 and 512, so the rank is 105. -/
theorem rank_probe_counterexample : probeVecRanked.rank 513 ≠ 104 := by decide

/-- C7 amended: on the probe vector with offset 100 the rank values are
rank(0) = 100, rank(64) = 102, rank(513) = 105 and rank(10000) = 106. -/
theorem rank_probe_values :
    probeVecRanked.rank 0 = 100 ∧ probeVecRanked.rank 64 = 102
    ∧ probeVecRanked.rank 513 = 105 ∧ probeVecRanked.rank 10000 = 106 := by
  decide

/-! ## List access helpers -/

theorem getD_set_self (l : List Nat) (i a : Nat) (h : i < l.length) :
    (l.set i a).getD i 0 = a := by
  simp [List.getD_eq_getElem?_getD, List.getElem?_set_self h]

theorem getD_set_ne (l : List Nat) (i j a : Nat) (h : i ≠ j) :
    (l.set i a).getD j 0 = l.getD j 0 := by
  simp [List.getD_eq_getElem?_getD, List.getElem?_set_ne h]

theorem getD_replicate_zero (n j : Nat) : (List.replicate n (0 : Nat)).getD j 0 = 0 := by
  by_cases h : j < n
  · simp [List.getD_eq_getElem?_getD, List.getElem?_replicate, h]
  · simp [List.getD_eq_getElem?_getD, List.getElem?_replicate, h]

/-! ## Bit access helpers -/

theorem shiftRight_and_one (y t : Nat) : (y >>> t) &&& 1 = y / 2 ^ t % 2 := by
  rw [Nat.and_one_is_mod, Nat.shiftRight_eq_div_pow]

theorem and_63_eq_mod (pos : Nat) : pos &&& 63 = pos % 64 := by
  have h := Nat.and_pow_two_sub_one_eq_mod pos 6
  norm_num at h
  exact h

theorem shiftRight_6_eq_div (pos : Nat) : pos >>> 6 = pos / 64 := by
  rw [Nat.shiftRight_eq_div_pow]

/-- Setting bit s of a word makes bit s read as 1. -/
theorem or_pow_bit_self (w s : Nat) : ((w ||| 1 <<< s) >>> s) &&& 1 = 1 := by
  rw [shiftRight_and_one]
  have h : (w ||| 1 <<< s).testBit s = true := by
    simp [Nat.testBit_or, Nat.one_shiftLeft, Nat.testBit_two_pow_self]
  rw [Nat.testBit_to_div_mod] at h
  exact of_decide_eq_true h

/-- Setting bit s of a word leaves every other bit position unchanged. -/
theorem or_pow_bit_other (w s t : Nat) (h : s ≠ t) :
    ((w ||| 1 <<< s) >>> t) &&& 1 = (w >>> t) &&& 1 := by
  rw [shiftRight_and_one, shiftRight_and_one]
  have hb : (w ||| 1 <<< s).testBit t = w.testBit t := by
    simp [Nat.testBit_or, Nat.one_shiftLeft, Nat.testBit_two_pow_of_ne h]
  rw [Nat.testBit_to_div_mod, Nat.testBit_to_div_mod] at hb
  rcases Nat.mod_two_eq_zero_or_one ((w ||| 1 <<< s) / 2 ^ t) with h1 | h1 <;>
    rcases Nat.mod_two_eq_zero_or_one (w / 2 ^ t) with h2 | h2 <;>
      simp [h1, h2] at hb ⊢

/-! ## Atomic test-and-set -/

/-- C5: atomic_test_and_set(pos) returns the prior value of bit pos, and
afterwards bit pos is 1 while every other bit is unchanged. -/
theorem atomic_test_and_set_spec (v : bitVector) (pos : Nat)
    (h : pos / 64 < v.bitArray.length) :
    (v.atomic_test_and_set pos).1 = v.get pos
    ∧ (v.atomic_test_and_set pos).2.get pos = 1
    ∧ ∀ q, q ≠ pos → (v.atomic_test_and_set pos).2.get q = v.get q := by
  have hlen : pos >>> 6 < v.bitArray.length := by rw [shiftRight_6_eq_div]; exact h
  refine ⟨rfl, ?_, ?_⟩
  · simp only [bitVector.atomic_test_and_set, bitVector.get]
    rw [getD_set_self _ _ _ hlen]
    exact or_pow_bit_self _ _
  · intro q hq
    simp only [bitVector.atomic_test_and_set, bitVector.get]
    by_cases hw : q >>> 6 = pos >>> 6
    · rw [hw, getD_set_self _ _ _ hlen]
      apply or_pow_bit_other
      rw [and_63_eq_mod, and_63_eq_mod]
      rw [shiftRight_6_eq_div, shiftRight_6_eq_div] at hw
      omega
    · rw [getD_set_ne _ _ _ _ (fun e => hw e.symm)]

/-- Witness for C5 on a concrete two-word vector at position 66. -/
theorem atomic_test_and_set_spec_witness :
    (({ size := 100, bitArray := [12, 5], ranks := [] } : bitVector).atomic_test_and_set 66).1
        = ({ size := 100, bitArray := [12, 5], ranks := [] } : bitVector).get 66
    ∧ (({ size := 100, bitArray := [12, 5], ranks := [] } : bitVector).atomic_test_and_set 66).2.get 66 = 1
    ∧ ∀ q, q ≠ 66 →
        (({ size := 100, bitArray := [12, 5], ranks := [] } : bitVector).atomic_test_and_set 66).2.get q
          = ({ size := 100, bitArray := [12, 5], ranks := [] } : bitVector).get q :=
  atomic_test_and_set_spec { size := 100, bitArray := [12, 5], ranks := [] } 66 (by decide)

/-! ## clearCollisions -/

theorem ccLoop_length (cw : List Nat) (ids : Nat) :
    ∀ n ii words, (bitVector.ccLoop cw ids n ii words).length = words.length := by
  intro n
  induction n with
  | zero => intro ii words; rfl
  | succ n ih =>
      intro ii words
      simp only [bitVector.ccLoop]
      rw [ih]
      simp

/-- Words outside the updated window are untouched by the loop. -/
theorem ccLoop_getD_out (cw : List Nat) (ids : Nat) :
    ∀ n ii words j, (j < ids + ii ∨ ids + ii + n ≤ j) →
      (bitVector.ccLoop cw ids n ii words).getD j 0 = words.getD j 0 := by
  intro n
  induction n with
  | zero => intro ii words j _; rfl
  | succ n ih =>
      intro ii words j hj
      simp only [bitVector.ccLoop]
      rw [ih (ii + 1) _ j (by omega), getD_set_ne _ _ _ _ (by omega)]

/-- Word ids+ii+k inside the window becomes its AND with the complement of
collision word ii+k. -/
theorem ccLoop_getD_in (cw : List Nat) (ids : Nat) :
    ∀ n ii k words, k < n → ids + ii + k < words.length →
      (bitVector.ccLoop cw ids n ii words).getD (ids + ii + k) 0
        = (words.getD (ids + ii + k) 0) &&& (0xffffffffffffffff ^^^ cw.getD (ii + k) 0) := by
  intro n
  induction n with
  | zero => intro ii k words hk; exact absurd hk (Nat.not_lt_zero k)
  | succ n ih =>
      intro ii k words hk hlen
      simp only [bitVector.ccLoop]
      cases k with
      | zero =>
          have he : ids + ii + 0 = ids + ii := by omega
          rw [he] at hlen ⊢
          rw [ccLoop_getD_out cw ids n (ii + 1) _ (ids + ii) (by omega),
            getD_set_self _ _ _ hlen]
          simp
      | succ k' =>
          have he : ids + ii + (k' + 1) = ids + (ii + 1) + k' := by omega
          rw [he] at hlen ⊢
          rw [ih (ii + 1) k' _ (by omega) (by simpa using hlen),
            getD_set_ne _ _ _ _ (by omega)]
          have h2 : ii + 1 + k' = ii + (k' + 1) := by omega
          rw [h2]

/-- C2: clearCollisions ANDs each word of the window with the complement of
the corresponding collision word, leaves all other words unchanged, and
zeroes the whole collision vector. -/
theorem clearCollisions_spec (B C : bitVector) (start len : Nat)
    (h1 : start % 64 = 0) (h2 : len % 64 = 0)
    (h3 : start / 64 + len / 64 ≤ B.bitArray.length)
    (h4 : len / 64 ≤ C.bitArray.length) :
    (∀ k, k < len / 64 →
        (B.clearCollisions start len C).1.bitArray.getD (start / 64 + k) 0
          = (B.bitArray.getD (start / 64 + k) 0)
              &&& (0xffffffffffffffff ^^^ C.bitArray.getD k 0))
    ∧ (∀ j, j < start / 64 ∨ start / 64 + len / 64 ≤ j →
        (B.clearCollisions start len C).1.bitArray.getD j 0 = B.bitArray.getD j 0)
    ∧ ∀ j, (B.clearCollisions start len C).2.bitArray.getD j 0 = 0 := by
  refine ⟨?_, ?_, ?_⟩
  · intro k hk
    simp only [bitVector.clearCollisions]
    have he : start / 64 + k = start / 64 + 0 + k := by omega
    rw [he, ccLoop_getD_in C.bitArray (start / 64) (len / 64) 0 k B.bitArray hk (by omega)]
    simp
  · intro j hj
    simp only [bitVector.clearCollisions]
    exact ccLoop_getD_out _ _ _ 0 _ j (by omega)
  · intro j
    simp only [bitVector.clearCollisions, bitVector.clear]
    exact getD_replicate_zero _ j

/-- Witness for C2 on concrete three-word B and one-word C with
start = 64, len = 64. -/
theorem clearCollisions_spec_witness :
    (∀ k, k < (64 : Nat) / 64 →
        (({ size := 192, bitArray := [3, 7, 9], ranks := [] } : bitVector).clearCollisions 64 64
            { size := 64, bitArray := [6], ranks := [] }).1.bitArray.getD (64 / 64 + k) 0
          = (({ size := 192, bitArray := [3, 7, 9], ranks := [] } : bitVector).bitArray.getD (64 / 64 + k) 0)
              &&& (0xffffffffffffffff ^^^
                ({ size := 64, bitArray := [6], ranks := [] } : bitVector).bitArray.getD k 0))
    ∧ (∀ j, j < (64 : Nat) / 64 ∨ (64 : Nat) / 64 + 64 / 64 ≤ j →
        (({ size := 192, bitArray := [3, 7, 9], ranks := [] } : bitVector).clearCollisions 64 64
            { size := 64, bitArray := [6], ranks := [] }).1.bitArray.getD j 0
          = ({ size := 192, bitArray := [3, 7, 9], ranks := [] } : bitVector).bitArray.getD j 0)
    ∧ ∀ j, (({ size := 192, bitArray := [3, 7, 9], ranks := [] } : bitVector).clearCollisions 64 64
            { size := 64, bitArray := [6], ranks := [] }).2.bitArray.getD j 0 = 0 :=
  clearCollisions_spec { size := 192, bitArray := [3, 7, 9], ranks := [] }
    { size := 64, bitArray := [6], ranks := [] } 64 64
    (by decide) (by decide) (by decide) (by decide)

/-! ## Save and load round trip -/

/-- C4: loading the exact stream written by save reproduces the vector
(same size, same words hence same get at every position, same rank samples
hence same rank at every position) and consumes the whole stream. -/
theorem load_save_roundtrip (v : bitVector) (h : v.bitArray.length = 1 + v.size / 64) :
    bitVector.load (bitVector.save v) = some (v, []) := by
  simp only [bitVector.save, bitVector.load]
  rw [← h]
  have hr1 : bitVector.readN v.bitArray.length (v.bitArray ++ v.ranks.length :: v.ranks)
      = some (v.bitArray, v.ranks.length :: v.ranks) := by
    simp only [bitVector.readN]
    rw [if_pos (by simp), List.take_left, List.drop_left]
  rw [hr1]
  have hr2 : bitVector.readN v.ranks.length v.ranks = some (v.ranks, []) := by
    simp only [bitVector.readN]
    rw [if_pos (Nat.le_refl _), List.take_length, List.drop_length]
  simp [hr2]

/-- Witness for C4 on a concrete one-word vector with one rank sample. -/
theorem load_save_roundtrip_witness :
    bitVector.load (bitVector.save { size := 3, bitArray := [5], ranks := [7] })
      = some (({ size := 3, bitArray := [5], ranks := [7] } : bitVector), []) :=
  load_save_roundtrip { size := 3, bitArray := [5], ranks := [7] } (by decide)

/-! ## build_ranks characterization -/

theorem popc64_zero : popcount_64 0 = 0 := by decide

theorem popSum_nil : popSum [] = 0 := rfl

theorem popSum_cons (w : Nat) (ws : List Nat) :
    popSum (w :: ws) = popcount_64 w + popSum ws := by
  simp [popSum]

theorem popSum_append (a b : List Nat) : popSum (a ++ b) = popSum a + popSum b := by
  simp [popSum]

/-- The returned final rank is the start rank plus the popcount of all
walked words. -/
theorem build_ranksGo_snd (ws : List Nat) :
    ∀ ii r, (bitVector.build_ranksGo ii r ws).2 = r + popSum ws := by
  induction ws with
  | nil => intro ii r; simp [bitVector.build_ranksGo, popSum_nil]
  | cons w ws ih =>
      intro ii r
      simp only [bitVector.build_ranksGo]
      rw [ih, popSum_cons]
      omega

/-- The samples pushed by the walk starting at word index ii with running
rank r are, for each offset j with (ii + j) divisible by 8, the value r plus
the popcount of the first j walked words. -/
theorem build_ranksGo_fst (ws : List Nat) :
    ∀ ii r, (bitVector.build_ranksGo ii r ws).1
      = ((List.range ws.length).filter (fun j => (ii + j) % 8 == 0)).map
          (fun j => r + popSum (ws.take j)) := by
  induction ws with
  | nil => intro ii r; simp [bitVector.build_ranksGo]
  | cons w ws ih =>
      intro ii r
      simp only [bitVector.build_ranksGo]
      rw [ih (ii + 1) (r + popcount_64 w)]
      have hpred : ((fun j => (ii + j) % 8 == 0) ∘ Nat.succ)
          = (fun j => ((ii + 1) + j) % 8 == 0) := by
        funext j
        simp only [Function.comp, Nat.succ_eq_add_one]
        have e : ii + (j + 1) = (ii + 1) + j := by omega
        rw [e]
      have hfun : ((fun j => r + popSum ((w :: ws).take j)) ∘ Nat.succ)
          = (fun j => (r + popcount_64 w) + popSum (ws.take j)) := by
        funext j
        simp only [Function.comp, Nat.succ_eq_add_one, List.take_succ_cons, popSum_cons]
        omega
      rw [List.length_cons, List.range_succ_eq_map, List.filter_cons]
      by_cases hc : ii % 8 = 0
      · have hc1 : ((ii * 64) % 512 == 0) = true := by
          have e : (ii * 64) % 512 = 0 := by omega
          simp [e]
        have hc2 : (((ii + 0) % 8 : Nat) == 0) = true := by simp [hc]
        rw [hc1, hc2, if_pos rfl, if_pos rfl]
        rw [List.map_cons, List.filter_map, List.map_map, hpred, hfun]
        simp [popSum_nil]
      · have hc1 : ((ii * 64) % 512 == 0) = false := by
          have e : (ii * 64) % 512 ≠ 0 := by omega
          simp [e]
        have hc2 : (((ii + 0) % 8 : Nat) == 0) = false := by simp [hc]
        rw [hc1, hc2, if_neg (by simp), if_neg (by simp)]
        rw [List.filter_map, List.map_map, hpred, hfun]
        simp

/-- The indices divisible by 8 below n are 8*b for b below the sample
count (n + 7) / 8. -/
theorem filter_mod8_range :
    ∀ n : Nat, (List.range n).filter (fun j => j % 8 == 0)
      = (List.range ((n + 7) / 8)).map (fun b => 8 * b) := by
  intro n
  induction n with
  | zero => rfl
  | succ n ih =>
      rw [List.range_succ, List.filter_append, ih]
      by_cases hc : n % 8 = 0
      · have hc1 : ((n % 8 : Nat) == 0) = true := by simp [hc]
        have e1 : (n + 1 + 7) / 8 = n / 8 + 1 := by omega
        have e2 : (n + 7) / 8 = n / 8 := by omega
        have e3 : 8 * (n / 8) = n := by omega
        rw [e1, e2, List.range_succ, List.map_append]
        simp [List.filter_cons, hc1, e3]
      · have hc1 : ((n % 8 : Nat) == 0) = false := by simp [hc]
        have e1 : (n + 1 + 7) / 8 = (n + 7) / 8 := by omega
        rw [e1]
        simp [List.filter_cons, hc1]

/-- Samples pushed by a walk from word index 0: for each b below
(length + 7) / 8 the sample is r plus the popcount of the first 8*b
words. -/
theorem build_ranksGo_fst_zero (ws : List Nat) (r : Nat) :
    (bitVector.build_ranksGo 0 r ws).1
      = (List.range ((ws.length + 7) / 8)).map (fun b => r + popSum (ws.take (8 * b))) := by
  rw [build_ranksGo_fst ws 0 r]
  have hp : (fun j => ((0 + j) % 8 : Nat) == 0) = (fun j : Nat => j % 8 == 0) := by
    funext j
    rw [Nat.zero_add]
  rw [hp, filter_mod8_range, List.map_map]
  rfl

/-- On a vector whose rank directory is empty, build_ranks installs exactly
the walk samples. -/
theorem build_ranks_fst_ranks (v : bitVector) (offset : Nat) (hr : v.ranks = []) :
    (v.build_ranks offset).1.ranks
      = (List.range ((v.bitArray.length + 7) / 8)).map
          (fun b => offset + popSum (v.bitArray.take (8 * b))) := by
  simp only [bitVector.build_ranks]
  rw [hr, build_ranksGo_fst_zero]
  rfl

theorem build_ranks_fst_bitArray (v : bitVector) (offset : Nat) :
    (v.build_ranks offset).1.bitArray = v.bitArray := rfl

theorem getD_map_range (f : Nat → Nat) (m b : Nat) (hb : b < m) :
    ((List.range m).map f).getD b 0 = f b := by
  rw [List.getD_eq_getElem?_getD, List.getElem?_map, List.getElem?_range hb]
  rfl

/-- C6: build_ranks(offset) called on a vector with an empty rank directory
returns offset plus the total popcount of all allocated words, stores one
sample per 8 words (512 bits), and the sample at index b is offset plus the
popcount of the words strictly before word index 8*b. -/
theorem build_ranks_spec (v : bitVector) (offset : Nat) (hr : v.ranks = []) :
    (v.build_ranks offset).2 = offset + popSum v.bitArray
    ∧ (v.build_ranks offset).1.ranks.length = (v.bitArray.length + 7) / 8
    ∧ ∀ b, b < (v.build_ranks offset).1.ranks.length →
        (v.build_ranks offset).1.ranks.getD b 0
          = offset + popSum (v.bitArray.take (8 * b)) := by
  refine ⟨?_, ?_, ?_⟩
  · simp only [bitVector.build_ranks]
    exact build_ranksGo_snd v.bitArray 0 offset
  · rw [build_ranks_fst_ranks v offset hr]
    simp
  · intro b hb
    rw [build_ranks_fst_ranks v offset hr] at hb ⊢
    simp only [List.length_map, List.length_range] at hb
    exact getD_map_range _ _ b hb

/-- Witness for C6 on a concrete two-word vector with offset 100. -/
theorem build_ranks_spec_witness :
    (({ size := 70, bitArray := [3, 5], ranks := [] } : bitVector).build_ranks 100).2
        = 100 + popSum [3, 5]
    ∧ (({ size := 70, bitArray := [3, 5], ranks := [] } : bitVector).build_ranks 100).1.ranks.length
        = (([3, 5] : List Nat).length + 7) / 8
    ∧ ∀ b, b < (({ size := 70, bitArray := [3, 5], ranks := [] } : bitVector).build_ranks 100).1.ranks.length →
        (({ size := 70, bitArray := [3, 5], ranks := [] } : bitVector).build_ranks 100).1.ranks.getD b 0
          = 100 + popSum (([3, 5] : List Nat).take (8 * b)) :=
  build_ranks_spec { size := 70, bitArray := [3, 5], ranks := [] } 100 (by rfl)

/-! ## Rank correctness -/

/-- The rank summation loop adds the popcounts of the n words starting at
index s. -/
theorem popRangeGo_eq (ws : List Nat) :
    ∀ n s, bitVector.popRangeGo ws n s = popSum ((ws.drop s).take n) := by
  intro n
  induction n with
  | zero => intro s; simp [bitVector.popRangeGo, popSum_nil]
  | succ n ih =>
      intro s
      simp only [bitVector.popRangeGo]
      rw [ih (s + 1)]
      by_cases hs : s < ws.length
      · rw [List.drop_eq_getElem_cons hs, List.take_succ_cons, popSum_cons,
          List.getD_eq_getElem _ _ hs]
      · have h1 : ws.drop s = [] := List.drop_eq_nil_of_le (by omega)
        have h2 : ws.drop (s + 1) = [] := List.drop_eq_nil_of_le (by omega)
        have h3 : ws.getD s 0 = 0 := by
          rw [List.getD_eq_getElem?_getD, List.getElem?_eq_none (by omega)]
          rfl
        rw [h1, h2, h3, popc64_zero]
        simp [popSum_nil]

/-- Popcount of a prefix splits at any interior point. -/
theorem popSum_take_split (ws : List Nat) (a n : Nat) :
    popSum (ws.take (a + n)) = popSum (ws.take a) + popSum ((ws.drop a).take n) := by
  have h1 := List.take_append_drop a (ws.take (a + n))
  calc popSum (ws.take (a + n))
      = popSum ((ws.take (a + n)).take a ++ (ws.take (a + n)).drop a) := by rw [h1]
    _ = popSum ((ws.take (a + n)).take a) + popSum ((ws.take (a + n)).drop a) :=
        popSum_append _ _
    _ = popSum (ws.take a) + popSum ((ws.drop a).take n) := by
        rw [List.take_take, Nat.min_eq_left (by omega), List.take_drop]

/-- Popcount of a prefix extended by one word. -/
theorem popSum_take_succ (ws : List Nat) (q : Nat) :
    popSum (ws.take (q + 1)) = popSum (ws.take q) + popcount_64 (ws.getD q 0) := by
  rw [List.take_succ, popSum_append]
  by_cases hq : q < ws.length
  · rw [List.getElem?_eq_getElem hq, List.getD_eq_getElem _ _ hq]
    simp [popSum]
  · rw [List.getElem?_eq_none (by omega)]
    have h3 : ws.getD q 0 = 0 := by
      rw [List.getD_eq_getElem?_getD, List.getElem?_eq_none (by omega)]
      rfl
    rw [h3, popc64_zero]
    simp [popSum_nil]

/-- Counting one more bit position extends the partial-word popcount. -/
theorem popSpecAux_64_mod_succ (w s : Nat) (hs : s < 64) :
    popSpecAux 64 (w % 2 ^ (s + 1)) = popSpecAux 64 (w % 2 ^ s) + w / 2 ^ s % 2 := by
  have hsplit : w % 2 ^ (s + 1) = w % 2 ^ s + 2 ^ s * (w / 2 ^ s % 2) := by
    have h := Nat.mod_pow_succ (x := w) (b := 2) (k := s)
    omega
  have hlt1 : w % 2 ^ (s + 1) < 2 ^ (s + 1) := Nat.mod_lt _ (Nat.two_pow_pos _)
  have hlt2 : w % 2 ^ s < 2 ^ s := Nat.mod_lt _ (Nat.two_pow_pos _)
  have h641 : (64 : Nat) = (s + 1) + (64 - (s + 1)) := by omega
  have h642 : (64 : Nat) = s + (64 - s) := by omega
  calc popSpecAux 64 (w % 2 ^ (s + 1))
      = popSpecAux (s + 1) (w % 2 ^ (s + 1)) := by
        rw [h641]
        exact popSpecAux_fuel_add (s + 1) (64 - (s + 1)) _ hlt1
    _ = popSpecAux s (w % 2 ^ s) + popSpecAux 1 (w / 2 ^ s % 2) := by
        rw [hsplit]
        exact popSpecAux_add_mul_pow s 1 _ _ hlt2
    _ = popSpecAux s (w % 2 ^ s) + w / 2 ^ s % 2 := by
        have ht : w / 2 ^ s % 2 < 2 := Nat.mod_lt _ (by norm_num)
        simp only [popSpecAux]
        omega
    _ = popSpecAux 64 (w % 2 ^ s) + w / 2 ^ s % 2 := by
        rw [h642, popSpecAux_fuel_add s (64 - s) _ hlt2]

/-- Splitting the highest bit off the 64-bit popcount. -/
theorem popcount_64_split_last (w : Nat) :
    popcount_64 w = popSpecAux 64 (w % 9223372036854775808)
      + w / 9223372036854775808 % 2 := by
  have h := popSpecAux_64_mod_succ w 63 (by norm_num)
  norm_num at h
  rw [popcount_64_eq_popSpec, h]

/-- The bit at position pos, written with plain division and remainder. -/
theorem get_eq_bit (v : bitVector) (pos : Nat) :
    v.get pos = v.bitArray.getD (pos / 64) 0 / 2 ^ (pos % 64) % 2 := by
  simp only [bitVector.get]
  rw [shiftRight_6_eq_div, and_63_eq_mod, shiftRight_and_one]

/-- The count of set bits strictly below pos equals the popcount of the
words strictly before word pos/64 plus the popcount of the low pos % 64
bits of that word. -/
theorem countP_range_bits (v : bitVector) :
    ∀ pos, (List.range pos).countP (fun i => v.get i == 1)
      = popSum (v.bitArray.take (pos / 64))
        + popSpecAux 64 (v.bitArray.getD (pos / 64) 0 % 2 ^ (pos % 64)) := by
  intro pos
  induction pos with
  | zero => simp [popSum_nil, Nat.mod_one, popSpecAux_zero]
  | succ p ih =>
      rw [List.range_succ, List.countP_append, ih]
      have hone : List.countP (fun i => v.get i == 1) [p] = v.get p := by
        have h01 : v.get p = 0 ∨ v.get p = 1 := by
          rw [get_eq_bit]
          omega
        rcases h01 with h | h <;> simp [List.countP_cons, h]
      rw [hone]
      by_cases hp : p % 64 = 63
      · have e1 : (p + 1) / 64 = p / 64 + 1 := by omega
        have e2 : (p + 1) % 64 = 0 := by omega
        rw [e1, e2, popSum_take_succ, popcount_64_split_last (v.bitArray.getD (p / 64) 0)]
        have e3 : (2 : Nat) ^ (p % 64) = 9223372036854775808 := by
          rw [hp]
          norm_num
        rw [get_eq_bit, e3, Nat.pow_zero, Nat.mod_one, popSpecAux_zero]
        omega
      · have e1 : (p + 1) / 64 = p / 64 := by omega
        have e2 : (p + 1) % 64 = p % 64 + 1 := by omega
        rw [e1, e2, popSpecAux_64_mod_succ _ _ (by omega), get_eq_bit]
        omega

/-- Unfolding of rank into its three summands. -/
theorem rank_unfold (v : bitVector) (pos : Nat) :
    v.rank pos = v.ranks.getD (pos / 512) 0
      + bitVector.popRangeGo v.bitArray (pos / 64 - pos / 512 * 512 / 64) (pos / 512 * 512 / 64)
      + popcount_64 (v.bitArray.getD (pos / 64) 0 &&& ((1 <<< (pos % 64)) - 1)) := rfl

/-- C1: after build_ranks(offset) on a vector with an empty rank directory
and the word count the constructor establishes, rank(pos) for pos up to the
size equals offset plus the number of set bits strictly before pos. -/
theorem rank_correct (v : bitVector) (offset pos : Nat)
    (hr : v.ranks = []) (hlen : v.bitArray.length = 1 + v.size / 64)
    (hpos : pos ≤ v.size) :
    (v.build_ranks offset).1.rank pos
      = offset + countBitsBelow (v.build_ranks offset).1 pos := by
  have hb : pos / 512 < (v.bitArray.length + 7) / 8 := by
    have d1 : v.size / 64 / 8 = v.size / 512 := by rw [Nat.div_div_eq_div_mul]
    have d2 : pos / 512 ≤ v.size / 512 := Nat.div_le_div_right hpos
    omega
  rw [rank_unfold, build_ranks_fst_bitArray, build_ranks_fst_ranks v offset hr,
    getD_map_range _ _ _ hb, popRangeGo_eq]
  have e1 : pos / 512 * 512 / 64 = 8 * (pos / 512) := by omega
  rw [e1]
  have e2 : 8 * (pos / 512) + (pos / 64 - 8 * (pos / 512)) = pos / 64 := by
    have d1 : pos / 64 / 8 = pos / 512 := by rw [Nat.div_div_eq_div_mul]
    omega
  have hsplit := popSum_take_split v.bitArray (8 * (pos / 512)) (pos / 64 - 8 * (pos / 512))
  rw [e2] at hsplit
  have hmask : v.bitArray.getD (pos / 64) 0 &&& ((1 <<< (pos % 64)) - 1)
      = v.bitArray.getD (pos / 64) 0 % 2 ^ (pos % 64) := by
    rw [Nat.one_shiftLeft, Nat.and_pow_two_sub_one_eq_mod]
  rw [hmask]
  have hsmall : v.bitArray.getD (pos / 64) 0 % 2 ^ (pos % 64) < 18446744073709551616 := by
    have h1 : (2 : Nat) ^ (pos % 64) ≤ 2 ^ 64 := Nat.pow_le_pow_right (by norm_num) (by omega)
    have h2 := Nat.mod_lt (v.bitArray.getD (pos / 64) 0) (Nat.two_pow_pos (pos % 64))
    have h3 : (2 : Nat) ^ 64 = 18446744073709551616 := by norm_num
    omega
  rw [popcount_64_eq_popSpec, Nat.mod_eq_of_lt hsmall]
  simp only [countBitsBelow]
  rw [countP_range_bits (v.build_ranks offset).1 pos, build_ranks_fst_bitArray]
  omega

/-- Witness for C1 on a concrete two-word vector, offset 100, at the
inclusive endpoint pos = size = 70. -/
theorem rank_correct_witness :
    (({ size := 70, bitArray := [9223372036854775813, 1], ranks := [] } : bitVector).build_ranks 100).1.rank 70
      = 100 + countBitsBelow
          (({ size := 70, bitArray := [9223372036854775813, 1], ranks := [] } : bitVector).build_ranks 100).1 70 :=
  rank_correct { size := 70, bitArray := [9223372036854775813, 1], ranks := [] } 100 70
    (by rfl) (by decide) (by decide)

/-- C10: for pos up to the size, every index rank(pos) reads is in bounds:
the final word index pos/64 and every loop word index are below the word
count, and the sample index pos/512 is below the number of stored
samples. -/
theorem rank_access_in_bounds (v : bitVector) (offset pos : Nat)
    (hr : v.ranks = []) (hlen : v.bitArray.length = 1 + v.size / 64)
    (hpos : pos ≤ v.size) :
    pos / 64 < (v.build_ranks offset).1.bitArray.length
    ∧ pos / 512 < (v.build_ranks offset).1.ranks.length
    ∧ ∀ j, pos / 512 * 512 / 64 ≤ j → j < pos / 64 →
        j < (v.build_ranks offset).1.bitArray.length := by
  have h1 : pos / 64 < v.bitArray.length := by
    have hd : pos / 64 ≤ v.size / 64 := Nat.div_le_div_right hpos
    omega
  refine ⟨?_, ?_, ?_⟩
  · rw [build_ranks_fst_bitArray]
    exact h1
  · rw [build_ranks_fst_ranks v offset hr]
    simp only [List.length_map, List.length_range]
    have d1 : v.size / 64 / 8 = v.size / 512 := by rw [Nat.div_div_eq_div_mul]
    have d2 : pos / 512 ≤ v.size / 512 := Nat.div_le_div_right hpos
    omega
  · intro j hj1 hj2
    rw [build_ranks_fst_bitArray]
    omega

/-- Witness for C10 on the same concrete vector as the C1 witness. -/
theorem rank_access_in_bounds_witness :
    (70 : Nat) / 64 < (({ size := 70, bitArray := [9223372036854775813, 1], ranks := [] } : bitVector).build_ranks 100).1.bitArray.length
    ∧ (70 : Nat) / 512 < (({ size := 70, bitArray := [9223372036854775813, 1], ranks := [] } : bitVector).build_ranks 100).1.ranks.length
    ∧ ∀ j, (70 : Nat) / 512 * 512 / 64 ≤ j → j < (70 : Nat) / 64 →
        j < (({ size := 70, bitArray := [9223372036854775813, 1], ranks := [] } : bitVector).build_ranks 100).1.bitArray.length :=
  rank_access_in_bounds { size := 70, bitArray := [9223372036854775813, 1], ranks := [] } 100 70
    (by rfl) (by decide) (by decide)
